import Mathlib

/-!
Verification of the combinatorial particle-filter engine in `src/vcsmc.py`
(class `VCSMC`).  The definitions below are shallow embeddings of the
TensorFlow graph code: tensors become functions or lists, `tf.float64`
values become `ℝ` (or `ℚ` where the code only does exact arithmetic on
small values), integer tensors become `ℤ` or `ℕ`, and the random uniform
draw feeding the Gumbel perturbation becomes an explicit noise oracle, so
every routine is a deterministic function of its inputs and the draw.
-/

namespace VCSMC

/-- Embedding of `ncr(n, r)` (vcsmc.py lines 20-24): the numerator is the
product of `tf.range(n-r+1, n+1)` — the integers `n-r+1, …, n` — and the
denominator the product of `tf.range(1, r+1)` — the integers `1, …, r`;
the quotient is taken in `ℚ` (the TF `/` is true division). -/
def ncr (n r : ℕ) : ℚ :=
  (∏ k in Finset.Ico (n - r + 1) (n + 1), (k : ℚ)) /
    (∏ k in Finset.Ico 1 (r + 1), (k : ℚ))

/-- The combinatorial proposal probability `q = 1 / ncr(n - r, 2)` computed
at the top of `extend_partial_state` (vcsmc.py line 74). -/
def q_extend (n r : ℕ) : ℚ := 1 / ncr (n - r) 2

/-- Embedding of `get_Q` (vcsmc.py lines 50-56): exponentiate the free
logits, zero the diagonal (`tf.linalg.set_diag(exp(y_q), 0)`), row-normalize
by the off-diagonal row sums, and set the diagonal to minus the resulting
row sums. -/
noncomputable def get_Q {a : ℕ} (y_q : Matrix (Fin a) (Fin a) ℝ) :
    Matrix (Fin a) (Fin a) ℝ :=
  let expOffDiag : Matrix (Fin a) (Fin a) ℝ :=
    fun i j => if i = j then 0 else Real.exp (y_q i j)
  let denom : Fin a → ℝ := fun i => ∑ j, expOffDiag i j
  let q_entry : Matrix (Fin a) (Fin a) ℝ :=
    fun i j => expOffDiag i j * (1 / denom i)
  let hyphens : Fin a → ℝ := fun i => ∑ j, q_entry i j
  fun i j => if i = j then -hyphens i else q_entry i j

/-- Embedding of `compute_tree_likelihood` (vcsmc.py lines 104-110):
`tree_likelihood = matmul(stationary_probs, data, transpose_b=True)` is the
`1 × S` matrix of per-position dotted likelihoods, and the result is
`reduce_sum(log(tree_likelihood))` — the elementwise log summed over all
entries. -/
noncomputable def compute_tree_likelihood {S a : ℕ}
    (stationary_probs : Matrix (Fin 1) (Fin a) ℝ)
    (data : Matrix (Fin S) (Fin a) ℝ) : ℝ :=
  let tree_likelihood := stationary_probs * data.transpose
  ∑ i : Fin 1, ∑ j : Fin S, Real.log (tree_likelihood i j)

/-- `tf.reduce_logsumexp` along the particle axis. -/
noncomputable def reduce_logsumexp {K : ℕ} (v : Fin K → ℝ) : ℝ :=
  Real.log (∑ k, Real.exp (v k))

/-- Embedding of `compute_log_ZSMC` (vcsmc.py lines 124-130):
`reduce_sum(reduce_logsumexp(log_weights - log K, axis=1))` on the
step × particle log-weight matrix. -/
noncomputable def compute_log_ZSMC {steps K : ℕ}
    (log_weights : Fin steps → Fin K → ℝ) : ℝ :=
  ∑ i, reduce_logsumexp (fun k => log_weights i k - Real.log K)

/-- Embedding of `overcounting_correct` (vcsmc.py lines 112-122): with
`threshold = n - i - 1`, the nested `tf.where` adds `+1` when both merged
indices are strictly below the threshold, `-1` when both are strictly
above, `0` otherwise, and the function returns `1 / v` for the updated
`v`.  Indices and the step counter are exact integers; `v` is `ℚ`
(the float64 arithmetic here is exact on these values). -/
def overcounting_correct (v : ℚ) (indices : ℤ × ℤ) (n i : ℤ) : ℚ :=
  let idx1 := indices.1
  let idx2 := indices.2
  let threshold : ℤ := n - i - 1
  let cond_greater : ℚ := if idx1 > threshold ∧ idx2 > threshold then -1 else 0
  let result : ℚ := if idx1 < threshold ∧ idx2 < threshold then 1 else cond_greater
  1 / (v + result)

/-- Embedding of `cond_true_update_weights` (vcsmc.py lines 157-163), the
`i > 0` branch of the per-particle weight update: append
`overcounting_correct(v[k], coalesced_indices[k], i)` to `v`, then append
`log_likelihood_i[k+1] - log_likelihood_tilda[k] + log(v[k+K]) - log(q)`
to the step's weight list (`v[k+K]` is exactly the value just appended,
since `v` holds `K + k` entries when particle `k` is processed).
`n` (the taxa count, `self.n`) and `K` (`self.K`) are the instance fields
the Python methods read implicitly. -/
noncomputable def cond_true_update_weights (n : ℤ) (K : ℕ)
    (log_weights_i log_likelihood_i log_likelihood_tilda : List ℝ)
    (coalesced_indices : List (ℤ × ℤ)) (v : List ℚ) (q : ℚ)
    (i : ℤ) (k : ℕ) : List ℚ × List ℝ :=
  let v2 := v ++ [overcounting_correct (v.getD k 0) (coalesced_indices.getD k (0, 0)) n i]
  let new_log_weight : ℝ :=
    log_likelihood_i.getD (k + 1) 0 - log_likelihood_tilda.getD k 0
      + Real.log ((v2.getD (k + K) 0 : ℚ) : ℝ) - Real.log ((q : ℚ) : ℝ)
  (v2, log_weights_i ++ [new_log_weight])

/-- Embedding of `cond_false_update_weights` (vcsmc.py lines 165-168), the
step-0 branch: append the constant `1` to `v` and the constant `0` to
the step's weight list. -/
noncomputable def cond_false_update_weights (n : ℤ) (K : ℕ)
    (log_weights_i log_likelihood_i log_likelihood_tilda : List ℝ)
    (coalesced_indices : List (ℤ × ℤ)) (v : List ℚ) (q : ℚ)
    (i : ℤ) (k : ℕ) : List ℚ × List ℝ :=
  (v ++ [(1 : ℚ)], log_weights_i ++ [(0 : ℝ)])

/-- Embedding of `v = tf.gather(v, tf.range(self.K, 2 * self.K))`
(vcsmc.py line 225): the per-particle state carried into the next main-loop
iteration is the block of `K` entries appended during this step. -/
def body_main_v_gather (K : ℕ) (v : List ℚ) : List ℚ :=
  (List.range K).map (fun j => v.getD (K + j) 0)

/-- Entry `(kpart, j)` of `data = tf.mod(tf.reshape(tf.range((n-r)*K),
(K, n-r)), n-r)` (vcsmc.py lines 75-76): row `kpart` of the reshaped
`range` holds `kpart*m + j`, reduced mod `m = n - r`. -/
def dataEntry (m kpart j : ℕ) : ℕ := (kpart * m + j) % m

/-- One fold step of the maximum scan underlying `tf.nn.top_k`: keep the
current best index unless the candidate's score is strictly larger, so
ties resolve to the lower (earlier) index, as `tf.nn.top_k` documents. -/
def pickStep (s : ℕ → ℚ) (acc : Option ℕ) (i : ℕ) : Option ℕ :=
  match acc with
  | none => some i
  | some j => if s j < s i then some i else some j

/-- Index of the maximal score in a candidate list (lowest index on ties). -/
def pickMax (s : ℕ → ℚ) (l : List ℕ) : Option ℕ :=
  l.foldl (pickStep s) none

/-- `tf.nn.top_k(scores, k)` index output: the `k` indices of largest
score, in decreasing score order, ties resolved to the lower index —
realized as iterated maximum extraction over the remaining candidates. -/
def topkList (s : ℕ → ℚ) : ℕ → List ℕ → List ℕ
  | 0, _ => []
  | k + 1, cand =>
    match pickMax s cand with
    | none => []
    | some i => i :: topkList s k (cand.erase i)

/-- The per-particle pair of coalesced indices of `extend_partial_state`
(vcsmc.py lines 79-80): `top_k(data + z, 2)` on row `kpart`, where
`z` is the Gumbel perturbation of that row (the random draw, an oracle
here) and `data` is the `range`-mod matrix above. -/
def coalescedIndices (m kpart : ℕ) (z : ℕ → ℚ) : List ℕ :=
  topkList (fun j => (dataEntry m kpart j : ℚ) + z j) 2 (List.range m)

/-- The per-particle remaining indices of `extend_partial_state`
(vcsmc.py line 81): `top_k(-(data + z), n - r - 2)` on row `kpart`. -/
def remainingIndices (m kpart : ℕ) (z : ℕ → ℚ) : List ℕ :=
  topkList (fun j => -((dataEntry m kpart j : ℚ) + z j)) (m - 2) (List.range m)

/-- One row of the jump-chain (or core) update of `extend_partial_state`
(vcsmc.py lines 82-89): gather the remaining entries, gather the two
coalesced entries, merge them (`particle1 + '+' + particle2` for label
rows; the new conditional-likelihood entry for core rows), and concatenate
the merged node onto the kept block.  The gathers in the Python use the
per-row `top_k` indices against the flattened `K*(n-r)` tensor; for the
modeled row those indices address the row's own entries. -/
def extendRow {α : Type} (merge : α → α → α) (dflt : α) (kpart : ℕ)
    (row : List α) (z : ℕ → ℚ) : List α :=
  let m := row.length
  let coal := coalescedIndices m kpart z
  let keep := (remainingIndices m kpart z).map (fun idx => row.getD idx dflt)
  let particle1 := row.getD (coal.getD 0 0) dflt
  let particle2 := row.getD (coal.getD 1 0) dflt
  keep ++ [merge particle1 particle2]

/-- The unordered pair of coalesced indices a particle samples. -/
def pairChosen (m kpart : ℕ) (z : ℕ → ℚ) : Finset ℕ :=
  {(coalescedIndices m kpart z).getD 0 0, (coalescedIndices m kpart z).getD 1 0}

/-- The coordinate transposition exchanging noise slots 0 and 2. -/
def swap02 (j : ℕ) : ℕ := if j = 0 then 2 else if j = 2 then 0 else j

/-- A concrete noise draw `(10, 2, 0)` used as a test input: large enough
noise on slot 0 that the bottom-scored pair `{0, 1}` wins. -/
def noiseW : ℕ → ℚ := fun j => if j = 0 then 10 else if j = 1 then 2 else 0

/-- Concrete one-letter-alphabet stationary distribution (the value of
`softmax` on any single logit, hence exactly what `get_stationary_probs`
produces when `a = 1`), used as a test input. -/
def pi0 : Matrix (Fin 1) (Fin 1) ℝ := fun _ _ => 1

/-- Concrete root partial-likelihood matrix with two sequence positions,
each carrying likelihood `1/2`, used as a test input. -/
noncomputable def data0 : Matrix (Fin 2) (Fin 1) ℝ := fun _ _ => 1 / 2

/-- One iteration of `body_main` as it acts on a single particle's
forest row: extend the row with the step's noise draw and advance the
step counter `r` (vcsmc.py lines 193-227). -/
def stepChain {α : Type} (merge : α → α → α) (dflt : α) (noise : ℕ → ℕ → ℚ)
    (kpart : ℕ) (st : List α × ℕ) : List α × ℕ :=
  (extendRow merge dflt kpart st.1 (noise st.2), st.2 + 1)

/-- The main `tf.while_loop` (vcsmc.py lines 229-230 and 254-260) on a
single particle's row: repeat `body_main` while `cond_main`, i.e. while
`r < n - 1`, with explicit fuel bounding the unrolling. -/
def runMain {α : Type} (merge : α → α → α) (dflt : α) (noise : ℕ → ℕ → ℚ)
    (kpart n : ℕ) : ℕ → List α × ℕ → List α × ℕ
  | 0, st => st
  | fuel + 1, st =>
    if st.2 < n - 1 then runMain merge dflt noise kpart n fuel (stepChain merge dflt noise kpart st)
    else st

/-! ### Helper lemmas -/

lemma sum_ite_diag {a : ℕ} (i : Fin a) (f : Fin a → ℝ) (c : ℝ) (hf : f i = 0)
    (hc : c = -∑ j, f j) : (∑ j, if i = j then c else f j) = 0 := by
  rw [← Finset.add_sum_erase Finset.univ _ (Finset.mem_univ i)]
  rw [if_pos rfl]
  have herase : (∑ j in Finset.univ.erase i, if i = j then c else f j)
      = ∑ j in Finset.univ.erase i, f j := by
    refine Finset.sum_congr rfl fun j hj => ?_
    exact if_neg fun h => (Finset.mem_erase.mp hj).1 h.symm
  rw [herase, hc, ← Finset.add_sum_erase Finset.univ f (Finset.mem_univ i), hf]
  ring

/-! ### C9: the proposal probability -/

/-- Claim C9: for every step `r` with `m = n - r ≥ 2`, the scalar proposal
probability `q = 1 / ncr(n - r, 2)` computed by `extend_partial_state`
equals exactly `2 / (m * (m - 1)) = 1 / C(m, 2)`, and `ncr` agrees with
the binomial coefficient. -/
theorem q_extend_uniform (n r : ℕ) (h : 2 ≤ n - r) :
    q_extend n r = 2 / (((n - r : ℕ) : ℚ) * (((n - r : ℕ) : ℚ) - 1)) ∧
      ncr (n - r) 2 = (((n - r).choose 2 : ℕ) : ℚ) := by
  obtain ⟨m, hm⟩ : ∃ m, n - r = m + 2 := ⟨n - r - 2, by omega⟩
  rw [hm]
  have hnum : (∏ k in Finset.Ico (m + 2 - 2 + 1) (m + 2 + 1), (k : ℚ))
      = ((m : ℚ) + 1) * ((m : ℚ) + 2) := by
    have h1 : m + 2 - 2 + 1 = m + 1 := by omega
    have h2 : m + 2 + 1 = (m + 2) + 1 := rfl
    rw [h1, h2, Finset.prod_Ico_succ_top (by omega : m + 1 ≤ m + 2)]
    rw [show m + 2 = (m + 1) + 1 from rfl, Nat.Ico_succ_singleton,
      Finset.prod_singleton]
    push_cast
    ring
  have hden : (∏ k in Finset.Ico (1 : ℕ) (2 + 1), (k : ℚ)) = 2 := by
    rw [Finset.prod_Ico_succ_top (by norm_num : (1 : ℕ) ≤ 2),
      Nat.Ico_succ_singleton, Finset.prod_singleton]
    norm_num
  have hncr : ncr (m + 2) 2 = ((m : ℚ) + 1) * ((m : ℚ) + 2) / 2 := by
    unfold ncr
    rw [hnum, hden]
  constructor
  · unfold q_extend
    rw [hm, hncr]
    push_cast
    rw [one_div_div]
    congr 1
    ring
  · rw [hncr, Nat.choose_two_right]
    have hdvd : 2 ∣ (m + 2) * (m + 2 - 1) := by
      have : Even ((m + 1) * (m + 2)) := Nat.even_mul_succ_self (m + 1)
      have h3 : (m + 2) * (m + 2 - 1) = (m + 1) * (m + 2) := by
        have h4 : m + 2 - 1 = m + 1 := rfl
        rw [h4]
        ring
      rw [h3]
      exact this.two_dvd
    rw [Nat.cast_div hdvd (by norm_num)]
    push_cast
    ring

/-- Witness for `q_extend_uniform` at `n = 5`, `r = 2` (so `m = 3`). -/
theorem q_extend_uniform_witness :
    q_extend 5 2 = 2 / (((5 - 2 : ℕ) : ℚ) * (((5 - 2 : ℕ) : ℚ) - 1)) ∧
      ncr (5 - 2) 2 = (((5 - 2).choose 2 : ℕ) : ℚ) :=
  q_extend_uniform 5 2 (by decide)

/-! ### C8: generator validity of the rate matrix -/

/-- Claim C8: for every value of the free rate parameters, `get_Q` returns
a matrix whose off-diagonal entries are non-negative and whose rows sum to
zero — a valid infinitesimal generator. -/
theorem get_Q_generator {a : ℕ} (y_q : Matrix (Fin a) (Fin a) ℝ) :
    (∀ i j, i ≠ j → 0 ≤ get_Q y_q i j) ∧ (∀ i, ∑ j, get_Q y_q i j = 0) := by
  have hE : ∀ i j, (0 : ℝ) ≤ if i = j then 0 else Real.exp (y_q i j) := by
    intro i j
    split
    · exact le_refl 0
    · exact (Real.exp_pos _).le
  constructor
  · intro i j hij
    show (0 : ℝ) ≤ if i = j then _ else _
    rw [if_neg hij]
    refine mul_nonneg (hE i j) ?_
    exact one_div_nonneg.mpr (Finset.sum_nonneg fun j2 _ => hE i j2)
  · intro i
    apply sum_ite_diag
    · show (if i = i then (0:ℝ) else Real.exp (y_q i i)) * _ = 0
      rw [if_pos rfl, zero_mul]
    · rfl

/-- Witness for `get_Q_generator` at `a = 2` with zero logits. -/
theorem get_Q_generator_witness :
    (0 : ℝ) ≤ get_Q (fun _ _ => (0 : ℝ) : Matrix (Fin 2) (Fin 2) ℝ) 0 1 ∧
      ∑ j, get_Q (fun _ _ => (0 : ℝ) : Matrix (Fin 2) (Fin 2) ℝ) 0 j = 0 :=
  ⟨(get_Q_generator _).1 0 1 (by decide), (get_Q_generator _).2 0⟩

/-! ### C2: the tree likelihood at a root -/

/-- Counterexample to claim C2 as stated: `compute_tree_likelihood` does
not return the log of the likelihood summed across sequence positions.
At the concrete input `pi0`, `data0` (two positions of dotted likelihood
`1/2`) the code returns `log(1/2) + log(1/2) < 0`, while the log of the
summed likelihood is `log 1 = 0`. -/
theorem tree_likelihood_not_log_of_sum :
    compute_tree_likelihood pi0 data0 ≠
      Real.log (∑ i : Fin 1, ∑ j : Fin 2, (pi0 * data0.transpose) i j) := by
  have hlog2 : 0 < Real.log 2 := Real.log_pos one_lt_two
  have hmul : ∀ i : Fin 1, ∀ j : Fin 2, (pi0 * data0.transpose) i j = 1 / 2 := by
    intro i j
    simp [pi0, data0, Matrix.mul_apply, Matrix.transpose_apply, Fin.sum_univ_one]
  have hL : compute_tree_likelihood pi0 data0 = Real.log (1 / 2) + Real.log (1 / 2) := by
    simp only [compute_tree_likelihood]
    rw [Fin.sum_univ_one, Fin.sum_univ_two, hmul 0 0, hmul 0 1]
  have hR : Real.log (∑ i : Fin 1, ∑ j : Fin 2, (pi0 * data0.transpose) i j)
      = Real.log 1 := by
    rw [Fin.sum_univ_one, Fin.sum_univ_two, hmul 0 0, hmul 0 1]
    norm_num
  rw [hL, hR, Real.log_one]
  have : Real.log (1 / 2) = -Real.log 2 := by
    rw [one_div, Real.log_inv]
  rw [this]
  intro hcontra
  nlinarith

/-- Claim C2 amended: `compute_tree_likelihood` dots the stationary
distribution against the root's partial likelihood at each sequence
position and returns the SUM across positions of the logs of these dotted
likelihoods (the log of their product), not the log of their sum. -/
theorem tree_likelihood_sum_of_logs {S a : ℕ}
    (stationary_probs : Matrix (Fin 1) (Fin a) ℝ)
    (data : Matrix (Fin S) (Fin a) ℝ) :
    compute_tree_likelihood stationary_probs data
      = ∑ s : Fin S, Real.log (∑ α : Fin a, stationary_probs 0 α * data s α) := by
  simp [compute_tree_likelihood, Matrix.mul_apply, Matrix.transpose_apply,
    Fin.sum_univ_one]

/-! ### C7: the multi-sample lower bound -/

/-- Claim C7: for every `(n-1) × K` log-weight matrix, `compute_log_ZSMC`
returns the sum over steps of the logsumexp over the `K` particles of
`logWeight[step, k] - log K`; equivalently (proved here) each step
contributes its plain logsumexp minus `log K`. -/
theorem log_ZSMC_sum_logsumexp {steps K : ℕ} (lw : Fin steps → Fin K → ℝ)
    (hK : 0 < K) :
    compute_log_ZSMC lw = ∑ i, (Real.log (∑ k, Real.exp (lw i k)) - Real.log K) := by
  have hKR : (0 : ℝ) < (K : ℝ) := by exact_mod_cast hK
  have : Nonempty (Fin K) := ⟨⟨0, hK⟩⟩
  unfold compute_log_ZSMC reduce_logsumexp
  refine Finset.sum_congr rfl fun i _ => ?_
  have hexp : ∀ k : Fin K, Real.exp (lw i k - Real.log K)
      = Real.exp (lw i k) / (K : ℝ) := by
    intro k
    rw [Real.exp_sub, Real.exp_log hKR]
  rw [Finset.sum_congr rfl fun k _ => hexp k, ← Finset.sum_div]
  have hpos : (0 : ℝ) < ∑ k, Real.exp (lw i k) :=
    Finset.sum_pos (fun k _ => Real.exp_pos _) Finset.univ_nonempty
  rw [Real.log_div (ne_of_gt hpos) (ne_of_gt hKR)]

/-- Witness for `log_ZSMC_sum_logsumexp` at `steps = 1`, `K = 1`,
zero log-weights. -/
theorem log_ZSMC_sum_logsumexp_witness :
    0 < 1 ∧ compute_log_ZSMC (fun (_ : Fin 1) (_ : Fin 1) => (0 : ℝ))
      = ∑ i : Fin 1, (Real.log (∑ k : Fin 1, Real.exp (0 : ℝ)) - Real.log (1 : ℕ)) :=
  ⟨Nat.one_pos, log_ZSMC_sum_logsumexp (fun _ _ => (0 : ℝ)) Nat.one_pos⟩

/-! ### List helper lemmas -/

lemma getD_concat_length {α : Type} (l : List α) (x d : α) :
    (l ++ [x]).getD l.length d = x := by
  rw [List.getD_append_right l [x] d l.length (le_refl _), Nat.sub_self]
  rfl

lemma pickMax_foldl_mem (s : ℕ → ℚ) :
    ∀ (l : List ℕ) (j b : ℕ), l.foldl (pickStep s) (some j) = some b → b = j ∨ b ∈ l := by
  intro l
  induction l with
  | nil =>
    intro j b hb
    simp only [List.foldl_nil, Option.some.injEq] at hb
    exact Or.inl hb.symm
  | cons x xs ih =>
    intro j b hb
    rw [List.foldl_cons] at hb
    have hstep : pickStep s (some j) x = some x ∨ pickStep s (some j) x = some j := by
      by_cases hc : s j < s x
      · exact Or.inl (by simp [pickStep, hc])
      · exact Or.inr (by simp [pickStep, hc])
    rcases hstep with hx | hj
    · rw [hx] at hb
      rcases ih x b hb with h1 | h2
      · exact Or.inr (h1 ▸ List.mem_cons_self x xs)
      · exact Or.inr (List.mem_cons_of_mem x h2)
    · rw [hj] at hb
      rcases ih j b hb with h1 | h2
      · exact Or.inl h1
      · exact Or.inr (List.mem_cons_of_mem x h2)

lemma pickMax_mem (s : ℕ → ℚ) (l : List ℕ) (b : ℕ) (hb : pickMax s l = some b) :
    b ∈ l := by
  cases l with
  | nil => simp [pickMax] at hb
  | cons x xs =>
    unfold pickMax at hb
    rw [List.foldl_cons] at hb
    have hx : pickStep s none x = some x := rfl
    rw [hx] at hb
    rcases pickMax_foldl_mem s xs x b hb with h1 | h2
    · exact h1 ▸ List.mem_cons_self x xs
    · exact List.mem_cons_of_mem x h2

lemma pickMax_isSome (s : ℕ → ℚ) :
    ∀ (l : List ℕ), l ≠ [] → (pickMax s l).isSome := by
  have haux : ∀ (l : List ℕ) (j : ℕ), (l.foldl (pickStep s) (some j)).isSome := by
    intro l
    induction l with
    | nil => intro j; rfl
    | cons x xs ih =>
      intro j
      rw [List.foldl_cons]
      have hstep : pickStep s (some j) x = some x ∨ pickStep s (some j) x = some j := by
        by_cases hc : s j < s x
        · exact Or.inl (by simp [pickStep, hc])
        · exact Or.inr (by simp [pickStep, hc])
      rcases hstep with hx | hj
      · rw [hx]; exact ih x
      · rw [hj]; exact ih j
  intro l hl
  cases l with
  | nil => exact absurd rfl hl
  | cons x xs =>
    unfold pickMax
    rw [List.foldl_cons]
    have hx : pickStep s none x = some x := rfl
    rw [hx]
    exact haux xs x

lemma topkList_length (s : ℕ → ℚ) :
    ∀ (k : ℕ) (cand : List ℕ), (topkList s k cand).length = min k cand.length := by
  intro k
  induction k with
  | zero => intro cand; simp [topkList]
  | succ k ih =>
    intro cand
    cases hcand : cand with
    | nil => simp [topkList, pickMax]
    | cons x xs =>
      have hne : cand ≠ [] := by rw [hcand]; exact List.cons_ne_nil x xs
      obtain ⟨i, hi⟩ := Option.isSome_iff_exists.mp (pickMax_isSome s cand hne)
      rw [← hcand]
      unfold topkList
      rw [hi]
      have himem : i ∈ cand := pickMax_mem s cand i hi
      have herase : (cand.erase i).length = cand.length - 1 :=
        List.length_erase_of_mem himem
      have hpos : 1 ≤ cand.length := by
        rw [hcand]; exact Nat.succ_le_succ (Nat.zero_le _)
      simp only [List.length_cons, ih, herase]
      omega

lemma topkList_subset (s : ℕ → ℚ) :
    ∀ (k : ℕ) (cand : List ℕ) (x : ℕ), x ∈ topkList s k cand → x ∈ cand := by
  intro k
  induction k with
  | zero => intro cand x hx; simp [topkList] at hx
  | succ k ih =>
    intro cand x hx
    unfold topkList at hx
    cases hp : pickMax s cand with
    | none => rw [hp] at hx; simp at hx
    | some i =>
      rw [hp] at hx
      rcases List.mem_cons.mp hx with h1 | h2
      · exact h1 ▸ pickMax_mem s cand i hp
      · exact List.mem_of_mem_erase (ih (cand.erase i) x h2)

/-! ### C4: the overcounting update rule -/

/-- Claim C4: given the two merged indices and the threshold `n - i - 1`,
`overcounting_correct` increments the multiplicity when both indices are
below the threshold, decrements it when both exceed it, leaves it alone
when mixed, and in each case the value it hands to the weight update is
`1 / v` for the updated `v`; at step 0 (`cond_false_update_weights`) the
multiplicity is fixed at the constant `1` for every particle. -/
theorem overcounting_update_rule (v : ℚ) (idx1 idx2 n i : ℤ) :
    (idx1 < n - i - 1 ∧ idx2 < n - i - 1 →
      overcounting_correct v (idx1, idx2) n i = 1 / (v + 1)) ∧
    (idx1 > n - i - 1 ∧ idx2 > n - i - 1 →
      overcounting_correct v (idx1, idx2) n i = 1 / (v - 1)) ∧
    (¬(idx1 < n - i - 1 ∧ idx2 < n - i - 1) →
      ¬(idx1 > n - i - 1 ∧ idx2 > n - i - 1) →
      overcounting_correct v (idx1, idx2) n i = 1 / v) ∧
    (∀ (K : ℕ) (lw llik tilda : List ℝ) (coal : List (ℤ × ℤ)) (vl : List ℚ)
      (q : ℚ) (i2 : ℤ) (k : ℕ),
      (cond_false_update_weights n K lw llik tilda coal vl q i2 k).1 = vl ++ [1] ∧
      (cond_false_update_weights n K lw llik tilda coal vl q i2 k).2 = lw ++ [0]) := by
  refine ⟨?_, ?_, ?_, ?_⟩
  · intro hlt
    simp only [overcounting_correct]
    rw [if_pos hlt]
  · intro hgt
    have hnlt : ¬(idx1 < n - i - 1 ∧ idx2 < n - i - 1) := by
      intro hlt
      exact absurd hgt.1 (not_lt.mpr hlt.1.le)
    simp only [overcounting_correct]
    rw [if_neg hnlt, if_pos hgt, ← sub_eq_add_neg]
  · intro hnlt hngt
    simp only [overcounting_correct]
    rw [if_neg hnlt, if_neg hngt, add_zero]
  · intro K lw llik tilda coal vl q i2 k
    exact ⟨rfl, rfl⟩

/-- Witness for `overcounting_update_rule`: at `n = 4`, `i = 1` the
threshold is 2, and the three index patterns `(0,1)`, `(5,6)`, `(0,2)`
hit the increment, decrement and unchanged branches. -/
theorem overcounting_update_rule_witness :
    overcounting_correct 1 (0, 1) 4 1 = 1 / (1 + 1) ∧
    overcounting_correct 2 (5, 6) 4 1 = 1 / (2 - 1) ∧
    overcounting_correct 1 (0, 2) 4 1 = 1 / 1 ∧
    (cond_false_update_weights 4 1 [] [] [] [] [] 1 0 0).1 = [] ++ [1] :=
  ⟨(overcounting_update_rule 1 0 1 4 1).1 (by decide),
   (overcounting_update_rule 2 5 6 4 1).2.1 (by decide),
   (overcounting_update_rule 1 0 2 4 1).2.2.1 (by decide) (by decide),
   ((overcounting_update_rule 1 0 0 4 1).2.2.2 1 [] [] [] [] [] 1 0 0).1⟩

/-! ### C3: the per-step weight formula -/

/-- Claim C3: at every step `i > 0`, the log weight recorded by
`cond_true_update_weights` for particle `k` is
`logLikelihood_i[k+1] - logLikelihoodTilda[k] + log(v'[k]) - log q`, where
`v'[k]` is exactly the corrected value produced by `overcounting_correct`
for particle `k`; at step 0 the weight recorded by
`cond_false_update_weights` is `0`. -/
theorem update_weights_formula (n : ℤ) (K : ℕ)
    (lw llik tilda : List ℝ) (coal : List (ℤ × ℤ)) (v : List ℚ) (q : ℚ)
    (i : ℤ) (k : ℕ) (hi : 0 < i) (hv : v.length = K + k) :
    (cond_true_update_weights n K lw llik tilda coal v q i k).2.getD lw.length 0
      = llik.getD (k + 1) 0 - tilda.getD k 0
        + Real.log ((overcounting_correct (v.getD k 0) (coal.getD k (0, 0)) n i : ℚ) : ℝ)
        - Real.log ((q : ℚ) : ℝ) ∧
    (cond_false_update_weights n K lw llik tilda coal v q i k).2.getD lw.length 0 = 0 := by
  constructor
  · unfold cond_true_update_weights
    rw [getD_concat_length]
    have hidx : k + K = v.length := by omega
    rw [hidx, getD_concat_length]
  · unfold cond_false_update_weights
    rw [getD_concat_length]

/-- Witness for `update_weights_formula` at a concrete single-particle
configuration (`K = 1`, `k = 0`, step `i = 1` of an `n = 4` run). -/
theorem update_weights_formula_witness :
    (cond_true_update_weights 4 1 [0] [0, 5] [2] [(0, 1)] [1] (1/3) 1 0).2.getD
        (List.length [(0 : ℝ)]) 0
      = List.getD [(0 : ℝ), 5] (0 + 1) 0 - List.getD [(2 : ℝ)] 0 0
        + Real.log ((overcounting_correct (List.getD [(1 : ℚ)] 0 0)
            (List.getD [((0 : ℤ), (1 : ℤ))] 0 (0, 0)) 4 1 : ℚ) : ℝ)
        - Real.log (((1/3 : ℚ) : ℚ) : ℝ) ∧
    (cond_false_update_weights 4 1 [0] [0, 5] [2] [(0, 1)] [1] (1/3) 1 0).2.getD
        (List.length [(0 : ℝ)]) 0 = 0 :=
  update_weights_formula 4 1 [0] [0, 5] [2] [(0, 1)] [1] (1/3) 1 0
    (by decide) (by decide)

/-! ### C5: the carried-forward multiplicity -/

/-- Claim C5 fails on the code: at step `i = 1` of an `n = 4` run with one
particle whose multiplicity is `1` and whose merged indices `(0, 1)` are
both below the threshold `2`, `cond_true_update_weights` appends the
reciprocal `1/(1+1)` to `v`, and the gather on line 225 of vcsmc.py
carries that reciprocal — `1/2 < 1` — into the next main-loop step as the
particle's multiplicity. -/
theorem carried_v_drops_below_one :
    body_main_v_gather 1
        (cond_true_update_weights 4 1 [0] [0, 5] [2] [(0, 1)] [1] (1/3) 1 0).1
      = [1/2] ∧
    ¬ (1 ≤ (1/2 : ℚ)) := by
  have hoc : overcounting_correct 1 (0, 1) 4 1 = 1/2 := by
    simp only [overcounting_correct]
    norm_num
  have hv1 : (cond_true_update_weights 4 1 [0] [0, 5] [2] [(0, 1)] [1] (1/3) 1 0).1
      = [1, 1/2] := by
    simp only [cond_true_update_weights, List.getD_cons_zero]
    rw [hoc]
    rfl
  constructor
  · rw [hv1]
    rfl
  · norm_num

/-! ### C10: the decrement branch is unreachable -/

/-- Claim C10: the coalesced indices come from `top_k` over the `n - i`
positions of a row, so each is an element of `range (n - i)`; for any two
such indices the "both exceed the threshold" test of
`overcounting_correct` is false, the update adds `1` or `0` (never `-1`),
and for `v ≥ 1` the denominator `v + result` can never be zero. -/
theorem decrement_branch_unreachable (m kpart : ℕ) (z : ℕ → ℚ)
    (n i : ℤ) (hm : (m : ℤ) = n - i) (idx1 idx2 : ℕ)
    (h1 : idx1 ∈ coalescedIndices m kpart z) (h2 : idx2 ∈ coalescedIndices m kpart z)
    (v : ℚ) (hv : 1 ≤ v) :
    ¬((idx1 : ℤ) > n - i - 1 ∧ (idx2 : ℤ) > n - i - 1) ∧
    overcounting_correct v ((idx1 : ℤ), (idx2 : ℤ)) n i
      = 1 / (v + (if (idx1 : ℤ) < n - i - 1 ∧ (idx2 : ℤ) < n - i - 1 then 1 else 0)) ∧
    v + (if (idx1 : ℤ) < n - i - 1 ∧ (idx2 : ℤ) < n - i - 1 then 1 else 0) ≠ 0 := by
  have hb1 : idx1 < m := List.mem_range.mp (topkList_subset _ 2 _ idx1 h1)
  have hb2 : idx2 < m := List.mem_range.mp (topkList_subset _ 2 _ idx2 h2)
  have hle1 : (idx1 : ℤ) ≤ n - i - 1 := by omega
  have hle2 : (idx2 : ℤ) ≤ n - i - 1 := by omega
  have hngt : ¬((idx1 : ℤ) > n - i - 1 ∧ (idx2 : ℤ) > n - i - 1) := by
    intro hgt
    exact absurd hle1 (not_le.mpr hgt.1)
  refine ⟨hngt, ?_, ?_⟩
  · simp only [overcounting_correct]
    rw [if_neg hngt]
  · split
    · intro hzero
      have : v = -1 := by linarith
      linarith
    · intro hzero
      rw [add_zero] at hzero
      rw [hzero] at hv
      norm_num at hv

/-- Witness for `decrement_branch_unreachable` at `m = 3`, zero noise,
`n = 4`, `i = 1`, both indices taken from the actually computed top-2. -/
theorem decrement_branch_unreachable_witness :
    ¬(((2 : ℕ) : ℤ) > 4 - 1 - 1 ∧ ((1 : ℕ) : ℤ) > 4 - 1 - 1) ∧
    overcounting_correct 1 (((2 : ℕ) : ℤ), ((1 : ℕ) : ℤ)) 4 1
      = 1 / (1 + (if ((2 : ℕ) : ℤ) < 4 - 1 - 1 ∧ ((1 : ℕ) : ℤ) < 4 - 1 - 1 then 1 else 0)) ∧
    (1 : ℚ) + (if ((2 : ℕ) : ℤ) < 4 - 1 - 1 ∧ ((1 : ℕ) : ℤ) < 4 - 1 - 1 then 1 else 0) ≠ 0 := by
  have hcoal : coalescedIndices 3 0 (fun _ => 0) = [2, 1] := by
    have hrange : List.range 3 = [0, 1, 2] := rfl
    have h01 : dataEntry 3 0 0 < dataEntry 3 0 1 := by decide
    have h12 : dataEntry 3 0 1 < dataEntry 3 0 2 := by decide
    simp [coalescedIndices, hrange, topkList, pickMax, pickStep, List.foldl,
      List.erase, h01, h12]
  exact decrement_branch_unreachable 3 0 (fun _ => 0) 4 1 (by decide) 2 1
    (by rw [hcoal]; exact List.mem_cons_self 2 [1])
    (by rw [hcoal]; exact List.mem_cons_of_mem 2 (List.mem_cons_self 1 []))
    1 (le_refl 1)

/-! ### C6: the main loop and forest sizes -/

lemma extendRow_length {α : Type} (merge : α → α → α) (dflt : α) (kpart : ℕ)
    (row : List α) (z : ℕ → ℚ) (h : 2 ≤ row.length) :
    (extendRow merge dflt kpart row z).length = row.length - 1 := by
  simp only [extendRow]
  rw [List.length_append, List.length_map]
  have hrem : (remainingIndices row.length kpart z).length = row.length - 2 := by
    unfold remainingIndices
    rw [topkList_length, List.length_range]
    omega
  rw [hrem]
  simp only [List.length_cons, List.length_nil]
  omega

lemma stepChain_iterate {α : Type} (merge : α → α → α) (dflt : α)
    (noise : ℕ → ℕ → ℚ) (kpart n : ℕ) (chain : List α)
    (hn : 2 ≤ n) (hc : chain.length = n) :
    ∀ j, j ≤ n - 1 →
      ((stepChain merge dflt noise kpart)^[j] (chain, 0)).1.length = n - j ∧
      ((stepChain merge dflt noise kpart)^[j] (chain, 0)).2 = j := by
  intro j
  induction j with
  | zero =>
    intro _
    simpa using hc
  | succ j ih =>
    intro hj
    obtain ⟨hlen, hr⟩ := ih (by omega)
    rw [Function.iterate_succ_apply']
    constructor
    · show (extendRow merge dflt kpart _ _).length = n - (j + 1)
      rw [extendRow_length merge dflt kpart _ _ (by omega : 2 ≤ _)]
      · rw [hlen]
        omega
    · show _ + 1 = j + 1
      rw [hr]

lemma runMain_eq_iterate {α : Type} (merge : α → α → α) (dflt : α)
    (noise : ℕ → ℕ → ℚ) (kpart n : ℕ) :
    ∀ (fuel : ℕ) (st : List α × ℕ), st.2 ≤ n - 1 → n - 1 ≤ st.2 + fuel →
      runMain merge dflt noise kpart n fuel st
        = (stepChain merge dflt noise kpart)^[n - 1 - st.2] st := by
  intro fuel
  induction fuel with
  | zero =>
    intro st h1 h2
    have h0 : n - 1 - st.2 = 0 := by omega
    rw [h0]
    rfl
  | succ fuel ih =>
    intro st h1 h2
    by_cases hcond : st.2 < n - 1
    · have hstep : runMain merge dflt noise kpart n (fuel + 1) st
          = runMain merge dflt noise kpart n fuel (stepChain merge dflt noise kpart st) := by
        simp [runMain, hcond]
      rw [hstep, ih (stepChain merge dflt noise kpart st) (by simp [stepChain]; omega)
        (by simp [stepChain]; omega)]
      have hsnd : (stepChain merge dflt noise kpart st).2 = st.2 + 1 := rfl
      rw [hsnd, show n - 1 - st.2 = (n - 1 - (st.2 + 1)) + 1 from by omega,
        Function.iterate_succ_apply]
    · have h0 : n - 1 - st.2 = 0 := by omega
      rw [h0]
      simp [runMain, hcond]

/-- Claim C6: per particle, the main loop (`cond_main`: `r < n - 1`)
performs exactly `n - 1` body iterations no matter how much further fuel
is available; before the merge of step `j` the particle's forest row holds
exactly `n - j` nodes and after it `n - j - 1`; and the final state has a
single node and step counter `n - 1`.  The row transformation is the one
`extend_partial_state` applies to both the jump-chain row and (with the
same index lists) the core partial-likelihood row, so the count statement
covers both. -/
theorem main_loop_counts {α : Type} (merge : α → α → α) (dflt : α)
    (noise : ℕ → ℕ → ℚ) (kpart n : ℕ) (chain : List α)
    (hn : 2 ≤ n) (hc : chain.length = n) (j : ℕ) (hj : j ≤ n - 1)
    (fuel : ℕ) (hf : n - 1 ≤ fuel) :
    ((stepChain merge dflt noise kpart)^[j] (chain, 0)).1.length = n - j ∧
    ((stepChain merge dflt noise kpart)^[j] (chain, 0)).2 = j ∧
    runMain merge dflt noise kpart n fuel (chain, 0)
      = (stepChain merge dflt noise kpart)^[n - 1] (chain, 0) ∧
    (runMain merge dflt noise kpart n fuel (chain, 0)).1.length = 1 ∧
    (runMain merge dflt noise kpart n fuel (chain, 0)).2 = n - 1 := by
  obtain ⟨hlen, hr⟩ := stepChain_iterate merge dflt noise kpart n chain hn hc j hj
  have hrun : runMain merge dflt noise kpart n fuel (chain, 0)
      = (stepChain merge dflt noise kpart)^[n - 1] (chain, 0) := by
    have := runMain_eq_iterate merge dflt noise kpart n fuel (chain, 0)
      (by simp) (by simpa using hf)
    simpa using this
  obtain ⟨hlenf, hrf⟩ :=
    stepChain_iterate merge dflt noise kpart n chain hn hc (n - 1) (le_refl _)
  refine ⟨hlen, hr, hrun, ?_, ?_⟩
  · rw [hrun, hlenf]
    omega
  · rw [hrun, hrf]

/-- Witness for `main_loop_counts`: three taxa, two steps, string labels. -/
theorem main_loop_counts_witness :
    ((stepChain (fun a b : String => a ++ "+" ++ b) "" (fun _ _ => 0) 0)^[2]
        (["a", "b", "c"], 0)).1.length = 3 - 2 ∧
    ((stepChain (fun a b : String => a ++ "+" ++ b) "" (fun _ _ => 0) 0)^[2]
        (["a", "b", "c"], 0)).2 = 2 ∧
    runMain (fun a b : String => a ++ "+" ++ b) "" (fun _ _ => 0) 0 3 2 (["a", "b", "c"], 0)
      = (stepChain (fun a b : String => a ++ "+" ++ b) "" (fun _ _ => 0) 0)^[3 - 1]
          (["a", "b", "c"], 0) ∧
    (runMain (fun a b : String => a ++ "+" ++ b) "" (fun _ _ => 0) 0 3 2
        (["a", "b", "c"], 0)).1.length = 1 ∧
    (runMain (fun a b : String => a ++ "+" ++ b) "" (fun _ _ => 0) 0 3 2
        (["a", "b", "c"], 0)).2 = 3 - 1 :=
  main_loop_counts (fun a b : String => a ++ "+" ++ b) "" (fun _ _ => 0) 0 3
    ["a", "b", "c"] (by norm_num) rfl 2 (by norm_num) 2 (by norm_num)

/-! ### C1: the pair distribution of the Gumbel-max sampler -/

lemma topk2_pair_min2 (s : ℕ → ℚ) (h0 : s 2 ≤ s 0) (h1 : s 2 ≤ s 1) :
    ({(topkList s 2 [0, 1, 2]).getD 0 0, (topkList s 2 [0, 1, 2]).getD 1 0}
      : Finset ℕ) = {0, 1} := by
  rcases lt_or_le (s 0) (s 1) with h01 | h01
  · have e : topkList s 2 [0, 1, 2] = [1, 0] := by
      simp [topkList, pickMax, pickStep, List.foldl, List.erase, h01,
        not_lt.mpr h1, not_lt.mpr h0]
    rw [e]
    decide
  · have e : topkList s 2 [0, 1, 2] = [0, 1] := by
      simp [topkList, pickMax, pickStep, List.foldl, List.erase,
        not_lt.mpr h01, not_lt.mpr h1, not_lt.mpr h0]
    rw [e]
    decide

lemma topk2_pair_min0 (s : ℕ → ℚ) (h1 : s 0 < s 1) (h2 : s 0 < s 2) :
    ({(topkList s 2 [0, 1, 2]).getD 0 0, (topkList s 2 [0, 1, 2]).getD 1 0}
      : Finset ℕ) = {1, 2} := by
  rcases lt_or_le (s 1) (s 2) with h12 | h12
  · have e : topkList s 2 [0, 1, 2] = [2, 1] := by
      simp [topkList, pickMax, pickStep, List.foldl, List.erase, h1, h12]
    rw [e]
    decide
  · have e : topkList s 2 [0, 1, 2] = [1, 2] := by
      simp [topkList, pickMax, pickStep, List.foldl, List.erase, h1, h2,
        not_lt.mpr h12]
    rw [e]
    decide

/-- Claim C1 fails on the code: the scores perturbed by the Gumbel noise
are the row entries `data = [0, 1, …, m-1]`, not a constant vector, so the
top-2 selection is biased toward high indices.  Concretely, for `m = 3`:
whenever a noise draw `g` makes the pair `{0, 1}` win, the equally likely
coordinate-swapped draw `g ∘ swap02` makes `{1, 2}` win, while the central
draw `g = 0` (its own swap image) also elects `{1, 2}` — so under any
i.i.d. noise distribution `{1, 2}` is strictly more likely than `{0, 1}`,
contradicting the claimed uniform probability `1/C(3,2)`. -/
theorem gumbel_pair_bias :
    (∀ g : ℕ → ℚ, 2 + g 2 ≤ g 0 → 2 + g 2 ≤ 1 + g 1 →
      pairChosen 3 0 g = {0, 1} ∧ pairChosen 3 0 (fun j => g (swap02 j)) = {1, 2}) ∧
    pairChosen 3 0 (fun _ => 0) = {1, 2} := by
  have hrange : List.range 3 = [0, 1, 2] := rfl
  have hd0 : dataEntry 3 0 0 = 0 := rfl
  have hd1 : dataEntry 3 0 1 = 1 := rfl
  have hd2 : dataEntry 3 0 2 = 2 := rfl
  constructor
  · intro g hg0 hg1
    constructor
    · show ({(coalescedIndices 3 0 g).getD 0 0, (coalescedIndices 3 0 g).getD 1 0}
          : Finset ℕ) = {0, 1}
      unfold coalescedIndices
      rw [hrange]
      apply topk2_pair_min2
      · simp only [hd0, hd2]
        push_cast
        linarith
      · simp only [hd1, hd2]
        push_cast
        linarith
    · show ({(coalescedIndices 3 0 (fun j => g (swap02 j))).getD 0 0,
          (coalescedIndices 3 0 (fun j => g (swap02 j))).getD 1 0} : Finset ℕ) = {1, 2}
      unfold coalescedIndices
      rw [hrange]
      apply topk2_pair_min0
      · show ((dataEntry 3 0 0 : ℕ) : ℚ) + g (swap02 0)
            < ((dataEntry 3 0 1 : ℕ) : ℚ) + g (swap02 1)
        simp only [hd0, hd1, swap02]
        norm_num
        linarith
      · show ((dataEntry 3 0 0 : ℕ) : ℚ) + g (swap02 0)
            < ((dataEntry 3 0 2 : ℕ) : ℚ) + g (swap02 2)
        simp only [hd0, hd2, swap02]
        norm_num
        linarith
  · show ({(coalescedIndices 3 0 (fun _ => 0)).getD 0 0,
        (coalescedIndices 3 0 (fun _ => 0)).getD 1 0} : Finset ℕ) = {1, 2}
    unfold coalescedIndices
    rw [hrange]
    apply topk2_pair_min0
    · simp only [hd0, hd1]
      norm_num
    · simp only [hd0, hd2]
      norm_num

/-- Witness for `gumbel_pair_bias` at the concrete noise draw
`noiseW = (10, 2, 0)`. -/
theorem gumbel_pair_bias_witness :
    pairChosen 3 0 noiseW = {0, 1} ∧
    pairChosen 3 0 (fun j => noiseW (swap02 j)) = {1, 2} :=
  gumbel_pair_bias.1 noiseW (by norm_num [noiseW]) (by norm_num [noiseW])

end VCSMC
